import Mathlib

/-!
Verification of the s3du pipeline (src/s3du/main.py): cache store
read/write, flat-path-to-tree conversion (`parse_list`), and tree
serialization to the ncdu export format (`convert_tree`/`convert_branch`).
Python strings are modeled as `String`, Python ints as `Int`, Python
dicts (insertion-ordered) as association lists, and fallible operations
(KeyError, ValueError) as `Option`.
-/

namespace S3du

/-- Models Python `s.split("/")` on the character list of a string:
splitting on a separator always yields at least one (possibly empty)
segment, and adjacent/leading/trailing separators yield empty segments. -/
def splitSlashChars : List Char → List (List Char)
  | [] => [[]]
  | c :: rest =>
    if c = '/' then [] :: splitSlashChars rest
    else
      match splitSlashChars rest with
      | [] => [[c]]
      | s :: ss => (c :: s) :: ss

/-- Models Python `path.split("/")` from `parse_list`. -/
def splitSlash (s : String) : List String :=
  (splitSlashChars s.data).map (fun cs => String.mk cs)

theorem splitSlashChars_ne_nil (l : List Char) : splitSlashChars l ≠ [] := by
  induction l with
  | nil => simp [splitSlashChars]
  | cons c rest ih =>
    rw [splitSlashChars]
    split
    · simp
    · cases splitSlashChars rest <;> simp

theorem splitSlashChars_cons_slash (l : List Char) :
    splitSlashChars ('/' :: l) = [] :: splitSlashChars l := by
  rw [splitSlashChars]
  simp

theorem splitSlash_ne_nil (s : String) : splitSlash s ≠ [] := by
  unfold splitSlash
  have h := splitSlashChars_ne_nil s.data
  simp [h]

/-- Digit character for a single decimal digit, as produced by Python
`str()` on integers. -/
def digitChar (d : Nat) : Char :=
  match d with
  | 0 => '0' | 1 => '1' | 2 => '2' | 3 => '3' | 4 => '4'
  | 5 => '5' | 6 => '6' | 7 => '7' | 8 => '8' | _ => '9'

/-- Decimal digit characters of a natural number (Python `str()` on a
non-negative int). -/
def natToDigits (n : Nat) : List Char :=
  if _h : n < 10 then [digitChar n]
  else natToDigits (n / 10) ++ [digitChar (n % 10)]
termination_by n
decreasing_by
  exact Nat.div_lt_self (by omega) (by omega)

/-- Models Python `str()` on an int, as used by `csv.writer` when writing
the `Size` column of a cache row. -/
def intToStr (i : Int) : String :=
  if i < 0 then String.mk ('-' :: natToDigits (-i).toNat)
  else String.mk (natToDigits i.toNat)

/-- Value of a decimal digit character, `none` for a non-digit. -/
def digitVal (c : Char) : Option Nat :=
  if '0' ≤ c ∧ c ≤ '9' then some (c.toNat - 48) else none

def parseDigitsAux : List Char → Nat → Option Nat
  | [], acc => some acc
  | c :: rest, acc =>
    match digitVal c with
    | some d => parseDigitsAux rest (acc * 10 + d)
    | none => none

/-- Digit-string to natural number; `none` on the empty string or any
non-digit character. -/
def parseDigits : List Char → Option Nat
  | [] => none
  | c :: rest => parseDigitsAux (c :: rest) 0

/-- Models Python `int(s)` as used in `list_files` on the size column:
an optional sign followed by at least one decimal digit. -/
def strToInt (s : String) : Option Int :=
  match s.data with
  | [] => none
  | c :: rest =>
    if c = '-' then (parseDigits rest).map (fun n => -(n : Int))
    else if c = '+' then (parseDigits rest).map (fun n => (n : Int))
    else (parseDigits (c :: rest)).map (fun n => (n : Int))

theorem digitVal_digitChar (d : Nat) (h : d < 10) :
    digitVal (digitChar d) = some d := by
  interval_cases d <;> decide

theorem parseDigitsAux_append (xs ys : List Char) (acc : Nat) :
    parseDigitsAux (xs ++ ys) acc =
      match parseDigitsAux xs acc with
      | some m => parseDigitsAux ys m
      | none => none := by
  induction xs generalizing acc with
  | nil => simp [parseDigitsAux]
  | cons c rest ih =>
    rw [List.cons_append, parseDigitsAux, parseDigitsAux]
    match digitVal c with
    | some d => simp [ih]
    | none => simp

theorem parseDigitsAux_natToDigits (n : Nat) :
    parseDigitsAux (natToDigits n) 0 = some n := by
  rw [natToDigits]
  split
  · rw [parseDigitsAux, digitVal_digitChar n (by omega)]
    simp [parseDigitsAux]
  · rw [parseDigitsAux_append]
    have ih := parseDigitsAux_natToDigits (n / 10)
    rw [ih]
    show parseDigitsAux [digitChar (n % 10)] (n / 10) = some n
    rw [parseDigitsAux, digitVal_digitChar (n % 10) (Nat.mod_lt n (by omega))]
    simp [parseDigitsAux]
    omega
termination_by n
decreasing_by
  exact Nat.div_lt_self (by omega) (by omega)

theorem natToDigits_ne_nil (n : Nat) : natToDigits n ≠ [] := by
  rw [natToDigits]
  split
  · simp
  · simp

theorem parseDigits_natToDigits (n : Nat) : parseDigits (natToDigits n) = some n := by
  have hne := natToDigits_ne_nil n
  have hval := parseDigitsAux_natToDigits n
  match h : natToDigits n with
  | [] => exact absurd h hne
  | c :: rest =>
    rw [h] at hval
    rw [parseDigits]
    exact hval

theorem digitChar_isDigit (d : Nat) : '0' ≤ digitChar d ∧ digitChar d ≤ '9' := by
  match d with
  | 0 => decide
  | 1 => decide
  | 2 => decide
  | 3 => decide
  | 4 => decide
  | 5 => decide
  | 6 => decide
  | 7 => decide
  | 8 => decide
  | n + 9 => exact show '0' ≤ '9' ∧ '9' ≤ '9' by decide

theorem natToDigits_head_digit (n : Nat) :
    ∀ c ∈ natToDigits n, '0' ≤ c ∧ c ≤ '9' := by
  intro c hc
  rw [natToDigits] at hc
  split at hc
  · simp at hc
    subst hc
    exact digitChar_isDigit n
  · rw [List.mem_append] at hc
    rcases hc with hc | hc
    · exact natToDigits_head_digit (n / 10) c hc
    · simp at hc
      subst hc
      exact digitChar_isDigit (n % 10)
termination_by n
decreasing_by
  exact Nat.div_lt_self (by omega) (by omega)

/-- Python `int(str(i)) = i`: the string/integer round-trip on the size
column is the identity. -/
theorem strToInt_intToStr (i : Int) : strToInt (intToStr i) = some i := by
  rw [intToStr]
  split
  · show strToInt (String.mk ('-' :: natToDigits (-i).toNat)) = some i
    have hred : strToInt (String.mk ('-' :: natToDigits (-i).toNat)) =
        Option.map (fun n => -(n : Int)) (parseDigits (natToDigits (-i).toNat)) := rfl
    rw [hred, parseDigits_natToDigits]
    simp
    omega
  · show strToInt (String.mk (natToDigits i.toNat)) = some i
    match h : natToDigits i.toNat with
    | [] => exact absurd h (natToDigits_ne_nil i.toNat)
    | c :: rest =>
      have hd : '0' ≤ c ∧ c ≤ '9' := by
        apply natToDigits_head_digit i.toNat
        rw [h]
        simp
      have hc1 : ¬(c = '-') := by
        intro hx
        subst hx
        revert hd
        decide
      have hc2 : ¬(c = '+') := by
        intro hx
        subst hx
        revert hd
        decide
      have hred : strToInt (String.mk (c :: rest)) =
          (if c = '-' then Option.map (fun n => -(n : Int)) (parseDigits rest)
           else if c = '+' then Option.map (fun n => (n : Int)) (parseDigits rest)
           else Option.map (fun n => (n : Int)) (parseDigits (c :: rest))) := rfl
      rw [hred, if_neg hc1, if_neg hc2]
      rw [← h, parseDigits_natToDigits]
      simp
      omega

/-- The fixed set of storage class names accepted by the `-c` CLI flag
(`STORAGE_CLASSES` in main.py). -/
def STORAGE_CLASSES : List String :=
  ["STANDARD", "STANDARD_IA", "GLACIER", "DEEP_ARCHIVE"]

/-- An Object Record: one row of the cache file
(bucket, key, size, storage class). -/
structure ObjRecord where
  bucket : String
  key : String
  size : Int
  sclass : String
deriving DecidableEq

/-- One cache row as written by `cache_files`:
`writer.writerow([bucket, item['Key'], item['Size'], item['StorageClass']])`,
the integer size stringified by the csv writer. The csv layer itself
(comma escaping and quoting) is modeled as faithful transport of the list
of column strings. -/
def writeRow (r : ObjRecord) : List String :=
  [r.bucket, r.key, intToStr r.size, r.sclass]

/-- The cache file contents produced by `cache_files` for a list of
records: one row per record, no header row. -/
def cache_write (rs : List ObjRecord) : List (List String) :=
  rs.map writeRow

/-- The row filter in `list_files`:
`if self.storage_class and self.storage_class != sclass: continue`.
`none` models `self.storage_class is None`; a row is kept unless the
requested class is truthy (non-None and non-empty) and differs from the
row's class. -/
def class_matches (fl : Option String) (sclass : String) : Bool :=
  match fl with
  | none => true
  | some c => c == "" || c == sclass

/-- `list_files` from main.py: unpacks each csv row as
`(bucket, key, size, sclass)` (a row of any other arity raises, modeled
as `none`), skips rows rejected by the class filter, converts the size
with `int()` (`none` on failure), and accumulates
`('/' + bucket + '/' + key, size)` pairs in order. -/
def list_files (fl : Option String) : List (List String) → Option (List (String × Int))
  | [] => some []
  | row :: rest =>
    match row with
    | [bucket, key, size, sclass] =>
      if class_matches fl sclass then
        match strToInt size with
        | some n =>
          (list_files fl rest).map (fun files => ("/" ++ bucket ++ "/" ++ key, n) :: files)
        | none => none
      else list_files fl rest
    | _ => none

/-- The record-level reading of the cache (the Cache Store's `read_all`):
the row unpacking and `int()` conversion performed by the reader loop of
`list_files`, before the path transformation and with no class filter. -/
def read_records : List (List String) → Option (List ObjRecord)
  | [] => some []
  | row :: rest =>
    match row with
    | [bucket, key, size, sclass] =>
      match strToInt size with
      | some n => (read_records rest).map (fun rs => ⟨bucket, key, n, sclass⟩ :: rs)
      | none => none
    | _ => none

/-- A malformed cache row: wrong arity, or a size column rejected by
`int()`. -/
def bad_row (row : List String) : Bool :=
  match row with
  | [_, _, size, _] => (strToInt size).isNone
  | _ => true

/-- The cache freshness check at the top of `cache_files`: the cached
listing is reused iff the cache file exists, `--no-cache` was not given,
and `time.time() - st_mtime < 3600` (times in whole seconds). -/
def is_fresh (file_exists : Bool) (nocache : Bool) (now mtime : Int) : Bool :=
  file_exists && !nocache && decide (now - mtime < 3600)

theorem list_files_none_eq (rows : List (List String)) :
    list_files none rows =
      (read_records rows).map
        (List.map (fun r : ObjRecord => ("/" ++ r.bucket ++ "/" ++ r.key, r.size))) := by
  induction rows with
  | nil => rfl
  | cons row rest ih =>
    rcases row with _ | ⟨b, row⟩
    · simp [list_files, read_records]
    rcases row with _ | ⟨k, row⟩
    · simp [list_files, read_records]
    rcases row with _ | ⟨s, row⟩
    · simp [list_files, read_records]
    rcases row with _ | ⟨c, row⟩
    · simp [list_files, read_records]
    rcases row with _ | ⟨x, row⟩
    · rw [list_files, read_records]
      simp only [class_matches, if_true]
      cases h : strToInt s with
      | none => simp
      | some n =>
        rw [ih]
        cases read_records rest <;> simp
    · simp [list_files, read_records]

/-- C3: writing N records to the cache and reading them back with no
storage-class filter yields exactly the same N records, field for field —
the size column survives its int → str → int round-trip — and
`list_files` maps them to their `('/bucket/key', size)` pairs in order. -/
theorem cache_roundtrip (rs : List ObjRecord) :
    read_records (cache_write rs) = some rs ∧
    list_files none (cache_write rs) =
      some (rs.map (fun r => ("/" ++ r.bucket ++ "/" ++ r.key, r.size))) := by
  have h1 : read_records (cache_write rs) = some rs := by
    induction rs with
    | nil => rfl
    | cons r rest ih =>
      show read_records
          ([r.bucket, r.key, intToStr r.size, r.sclass] :: cache_write rest) =
        some (r :: rest)
      rw [read_records]
      show (match strToInt (intToStr r.size) with
            | some n =>
              (read_records (cache_write rest)).map
                (fun rs => ⟨r.bucket, r.key, n, r.sclass⟩ :: rs)
            | none => none) = some (r :: rest)
      rw [strToInt_intToStr, ih]
      rfl
  refine ⟨h1, ?_⟩
  rw [list_files_none_eq, h1]
  rfl

/-- C8: reading the cache file fails exactly when some row is malformed:
`read_records` returns `none` iff some row has wrong arity or a
non-integer size column, and succeeds on every well-formed input. -/
theorem read_records_error_iff (rows : List (List String)) :
    read_records rows = none ↔ ∃ row ∈ rows, bad_row row = true := by
  induction rows with
  | nil => simp [read_records]
  | cons row rest ih =>
    rcases row with _ | ⟨b, row⟩
    · simp [read_records, bad_row]
    rcases row with _ | ⟨k, row⟩
    · simp [read_records, bad_row]
    rcases row with _ | ⟨s, row⟩
    · simp [read_records, bad_row]
    rcases row with _ | ⟨c, row⟩
    · simp [read_records, bad_row]
    rcases row with _ | ⟨x, row⟩
    · rw [read_records]
      cases h : strToInt s with
      | none => simp [bad_row, h]
      | some n => simp [bad_row, h, ih]
    · simp [read_records, bad_row]

/-- C6: reading the cache with a storage-class filter drawn from
`STORAGE_CLASSES` returns exactly the matching records (as path/size
pairs, in order), silently skipping all others, and the returned count
equals the count of matching records in the written set. -/
theorem list_files_filter (rs : List ObjRecord) (c : String)
    (hc : c ∈ STORAGE_CLASSES) :
    list_files (some c) (cache_write rs) =
      some ((rs.filter (fun r => r.sclass == c)).map
        (fun r => ("/" ++ r.bucket ++ "/" ++ r.key, r.size))) ∧
    ((rs.filter (fun r => r.sclass == c)).map
        (fun r => ("/" ++ r.bucket ++ "/" ++ r.key, r.size))).length =
      rs.countP (fun r => r.sclass == c) := by
  have hne : (c == "") = false := by
    fin_cases hc <;> decide
  constructor
  · induction rs with
    | nil => rfl
    | cons r rest ih =>
      show list_files (some c)
          ([r.bucket, r.key, intToStr r.size, r.sclass] :: cache_write rest) = _
      rw [list_files]
      show (if class_matches (some c) r.sclass then
              match strToInt (intToStr r.size) with
              | some n =>
                (list_files (some c) (cache_write rest)).map
                  (fun files => ("/" ++ r.bucket ++ "/" ++ r.key, n) :: files)
              | none => none
            else list_files (some c) (cache_write rest)) = _
      rw [strToInt_intToStr]
      by_cases hcl : r.sclass = c
      · have : class_matches (some c) r.sclass = true := by
          simp [class_matches, hne, hcl]
        rw [if_pos this, ih]
        simp [hcl]
      · have : class_matches (some c) r.sclass = false := by
          simp [class_matches, hne]
          exact fun hx => absurd hx.symm hcl
        rw [this, if_neg (by simp), ih]
        have hb : (r.sclass == c) = false := beq_eq_false_iff_ne.mpr hcl
        simp [List.filter_cons, hb]
  · rw [List.length_map, List.countP_eq_length_filter]

/-- Witness for C6 at a concrete input: a GLACIER filter over one
STANDARD and one GLACIER record returns exactly the GLACIER record. -/
theorem list_files_filter_witness :
    list_files (some "GLACIER")
        (cache_write [⟨"b", "x", 1, "STANDARD"⟩, ⟨"b", "y", 2, "GLACIER"⟩]) =
      some [("/b/y", 2)] := by
  have h := list_files_filter
    [⟨"b", "x", 1, "STANDARD"⟩, ⟨"b", "y", 2, "GLACIER"⟩] "GLACIER" (by decide)
  rw [h.1]
  rfl

/-- C5: the cache is treated as fresh iff the cache file exists, no
forced refresh was requested, and less than 3600 seconds elapsed since
its last modification; a file modified 10 seconds ago is fresh and one
modified 7200 seconds ago is stale. -/
theorem is_fresh_iff (e nc : Bool) (now mtime : Int) :
    (is_fresh e nc now mtime = true ↔
      e = true ∧ nc = false ∧ now - mtime < 3600) ∧
    is_fresh true false now (now - 10) = true ∧
    is_fresh true false now (now - 7200) = false := by
  refine ⟨?_, ?_, ?_⟩
  · simp [is_fresh, and_assoc]
  · simp [is_fresh]
  · simp [is_fresh]

/-- A Directory Node as built by `parse_list`:
`{'dirs': {...}, 'files': [...]}`, the insertion-ordered dict of
subdirectories modeled as an association list. -/
inductive Tree where
  | mk (dirs : List (String × Tree)) (files : List (String × Int))

def Tree.dirs : Tree → List (String × Tree)
  | .mk ds _ => ds

def Tree.files : Tree → List (String × Int)
  | .mk _ fs => fs

/-- Dict update for one step of the `for em in path` loop of
`parse_list`: if the key is present, rewrite its subtree with `f` in
place; otherwise append a fresh entry `f (empty node)` at the end, as
Python dict insertion does. -/
def insertDirs (seg : String) (f : Tree → Tree) :
    List (String × Tree) → List (String × Tree)
  | [] => [(seg, f (Tree.mk [] []))]
  | (k, t) :: ds =>
    if k == seg then (k, f t) :: ds
    else (k, t) :: insertDirs seg f ds

/-- The body of the `parse_list` loop for one `(path, size)` pair after
splitting: walk the chain of directory segments, creating nodes on
demand, and append `(fname, size)` to the terminal node's file list. -/
def insertInto : List String → String → Int → Tree → Tree
  | [], fname, size, t => Tree.mk t.dirs (t.files ++ [(fname, size)])
  | seg :: rest, fname, size, t =>
    Tree.mk (insertDirs seg (fun s => insertInto rest fname size s) t.dirs) t.files

/-- One iteration of `parse_list`: split the path on `/`, pop the last
segment as the leaf filename, and insert along all remaining segments. -/
def parse_step (tree : Tree) (pf : String × Int) : Tree :=
  let segs := splitSlash pf.1
  insertInto segs.dropLast (segs.getLastD "") pf.2 tree

/-- `parse_list` from main.py: fold the insertion over the `(path, size)`
pairs, starting from the empty root `{'dirs': {}, 'files': []}`. -/
def parse_list (files : List (String × Int)) : Tree :=
  files.foldl parse_step (Tree.mk [] [])

/-- All `(filename, size)` leaf entries in a forest of subdirectories,
in the serializer's traversal order (subdirectories before own files). -/
def leavesDirs : List (String × Tree) → List (String × Int)
  | [] => []
  | (_, Tree.mk ds fs) :: rest => (leavesDirs ds ++ fs) ++ leavesDirs rest
termination_by l => sizeOf l

/-- All `(filename, size)` leaf entries of a tree, over all its nodes. -/
def Tree.leaves (t : Tree) : List (String × Int) :=
  leavesDirs t.dirs ++ t.files

/-- Python dict access on the modeled subdirectory dict; `none` models a
KeyError. -/
def findTree : List (String × Tree) → String → Option Tree
  | [], _ => none
  | (k, t) :: rest, seg => if k == seg then some t else findTree rest seg

/-- The node reached from `t` by following a chain of directory names. -/
def lookupNode : Tree → List String → Option Tree
  | t, [] => some t
  | t, seg :: rest =>
    match findTree t.dirs seg with
    | some sub => lookupNode sub rest
    | none => none

/-- The file list of the node addressed by a chain of directory names
(empty when no such node exists). -/
def lookupFiles (t : Tree) (segs : List String) : List (String × Int) :=
  match lookupNode t segs with
  | some sub => sub.files
  | none => []

/-- One element of the ncdu export: a name header object, a leaf file
object `{'name': ..., 'dsize': ...}`, or a nested directory array. -/
inductive NEntry where
  | nameObj (name : String)
  | fileObj (name : String) (dsize : Int)
  | dir (entries : List NEntry)

/-- Python `name or '(unnamed)'`: the empty string is falsy and is
replaced by the literal placeholder. -/
def orUnnamed (s : String) : String :=
  if s = "" then "(unnamed)" else s

/-- The recursion of `convert_branch` over the subdirectory dict: each
`(k, v)` pair becomes the nested array `convert_branch v k`. -/
def convertDirs : List (String × Tree) → List NEntry
  | [] => []
  | (k, Tree.mk ds fs) :: rest =>
    NEntry.dir (NEntry.nameObj (orUnnamed k) ::
      (convertDirs ds ++ fs.map (fun p => NEntry.fileObj (orUnnamed p.1) p.2))) ::
    convertDirs rest
termination_by l => sizeOf l

/-- `convert_branch` from main.py: the name header object first, then
all subdirectory arrays in dict order, then all leaf file objects in
list order. -/
def convert_branch (t : Tree) (name : String) : List NEntry :=
  NEntry.nameObj (orUnnamed name) ::
    (convertDirs t.dirs ++ t.files.map (fun p => NEntry.fileObj (orUnnamed p.1) p.2))

/-- The ncdu export produced by `convert_tree`:
`[1, 0, {'timestamp': ..., 'progver': '0.1', 'progname': 's3du'}, root]`. -/
structure Ncdu where
  major : Int
  minor : Int
  timestamp : Int
  progver : String
  progname : String
  root : List NEntry

/-- `convert_tree` from main.py: builds the version/metadata header and
appends `convert_branch(tree['dirs'][''], 'S3')`; accessing the `''`
child of a root that lacks one is a KeyError, modeled as `none`. -/
def convert_tree (now : Int) (tree : Tree) : Option Ncdu :=
  match findTree tree.dirs "" with
  | some sub => some ⟨1, 0, now, "0.1", "s3du", convert_branch sub "S3"⟩
  | none => none

/-- All `(name, dsize)` leaf file objects occurring anywhere in a list
of export entries, nested arrays included. -/
def entriesFiles : List NEntry → List (String × Int)
  | [] => []
  | NEntry.nameObj _ :: rest => entriesFiles rest
  | NEntry.fileObj n s :: rest => (n, s) :: entriesFiles rest
  | NEntry.dir es :: rest => entriesFiles es ++ entriesFiles rest
termination_by l => sizeOf l

theorem leavesDirs_cons (k : String) (t : Tree) (rest : List (String × Tree)) :
    leavesDirs ((k, t) :: rest) = t.leaves ++ leavesDirs rest := by
  cases t with
  | mk ds fs => rw [leavesDirs, Tree.leaves, Tree.dirs, Tree.files]

theorem lookupFiles_empty_tree (segs : List String) :
    lookupFiles (Tree.mk [] []) segs = [] := by
  cases segs with
  | nil => rfl
  | cons seg rest => simp [lookupFiles, lookupNode, findTree, Tree.dirs]

theorem findTree_insertDirs (seg : String) (g : Tree → Tree) :
    ∀ ds, findTree (insertDirs seg g ds) seg =
      some (g ((findTree ds seg).getD (Tree.mk [] []))) := by
  intro ds
  induction ds with
  | nil => simp [insertDirs, findTree]
  | cons kt ds ih =>
    obtain ⟨k, t⟩ := kt
    rw [insertDirs]
    by_cases hk : k == seg
    · rw [if_pos hk, findTree, if_pos hk, findTree, if_pos hk]
      rfl
    · rw [if_neg (by simp [hk]), findTree, if_neg (by simp [hk]),
        findTree, if_neg (by simp [hk])]
      exact ih

theorem lookupFiles_cons (t : Tree) (seg : String) (rest : List String) :
    lookupFiles t (seg :: rest) =
      match findTree t.dirs seg with
      | some sub => lookupFiles sub rest
      | none => [] := by
  cases h : findTree t.dirs seg with
  | some sub => simp [lookupFiles, lookupNode, h]
  | none => simp [lookupFiles, lookupNode, h]

theorem lookupFiles_insertInto (segs : List String) (fname : String) (sz : Int) :
    ∀ t, lookupFiles (insertInto segs fname sz t) segs =
      lookupFiles t segs ++ [(fname, sz)] := by
  induction segs with
  | nil =>
    intro t
    cases t with
    | mk ds fs => simp [insertInto, lookupFiles, lookupNode, Tree.files]
  | cons seg rest ih =>
    intro t
    cases t with
    | mk ds fs =>
      rw [show insertInto (seg :: rest) fname sz (Tree.mk ds fs) =
            Tree.mk (insertDirs seg (fun s => insertInto rest fname sz s) ds) fs
          from rfl]
      rw [lookupFiles_cons, lookupFiles_cons]
      rw [show (Tree.mk (insertDirs seg (fun s => insertInto rest fname sz s) ds)
            fs).dirs = insertDirs seg (fun s => insertInto rest fname sz s) ds
          from rfl]
      rw [show (Tree.mk ds fs).dirs = ds from rfl]
      rw [findTree_insertDirs]
      cases findTree ds seg with
      | some sub =>
        show lookupFiles (insertInto rest fname sz sub) rest =
          lookupFiles sub rest ++ [(fname, sz)]
        exact ih sub
      | none =>
        show lookupFiles (insertInto rest fname sz (Tree.mk [] [])) rest =
          [] ++ [(fname, sz)]
        rw [ih (Tree.mk [] []), lookupFiles_empty_tree]

/-- C4 (counterexample): on input path `/a` the claim's chain — the
non-empty preceding segments, i.e. no segment at all — would put the
leaf `('a', 1)` in the root's own file list; the code instead keeps the
empty leading segment as a directory component, so the root's file list
stays empty and the leaf sits under the `''` child. -/
theorem parse_list_keeps_empty_segment :
    lookupFiles (parse_list [("/a", 1)]) [] = [] ∧
    lookupFiles (parse_list [("/a", 1)]) [""] = [("a", 1)] := by
  constructor
  · rfl
  · rfl

/-- C4 (amended): inserting a `(path, size)` pair splits the path on
`/`, takes the last segment as the leaf filename, and descends through
ALL preceding segments — the empty leading segment of an absolute-style
path included — creating directory nodes on demand, and appends the
`(filename, size)` pair at the end of that terminal node's file list. -/
theorem parse_list_insert_at_full_chain (files : List (String × Int))
    (p : String) (sz : Int) :
    lookupFiles (parse_list (files ++ [(p, sz)])) ((splitSlash p).dropLast) =
      lookupFiles (parse_list files) ((splitSlash p).dropLast) ++
        [((splitSlash p).getLastD "", sz)] := by
  rw [parse_list, parse_list, List.foldl_append, List.foldl_cons, List.foldl_nil]
  exact lookupFiles_insertInto _ _ _ _

theorem leavesDirs_nil : leavesDirs [] = [] := by simp [leavesDirs]

theorem leaves_empty_tree : (Tree.mk [] []).leaves = [] := by
  rw [Tree.leaves, Tree.dirs, Tree.files, leavesDirs_nil]
  rfl

theorem insertDirs_leaves (seg : String) (g : Tree → Tree) (x : String × Int)
    (hg : ∀ t, (g t).leaves.Perm (x :: t.leaves)) :
    ∀ ds, (leavesDirs (insertDirs seg g ds)).Perm (x :: leavesDirs ds) := by
  intro ds
  induction ds with
  | nil =>
    rw [insertDirs, leavesDirs_cons, leavesDirs_nil, List.append_nil]
    have h := hg (Tree.mk [] [])
    rw [leaves_empty_tree] at h
    exact h
  | cons kt ds ih =>
    obtain ⟨k, t⟩ := kt
    rw [insertDirs]
    by_cases hk : k == seg
    · rw [if_pos hk, leavesDirs_cons, leavesDirs_cons]
      exact (hg t).append_right _
    · rw [if_neg (by simp [hk]), leavesDirs_cons, leavesDirs_cons]
      exact (ih.append_left _).trans List.perm_middle

theorem insertInto_leaves (segs : List String) (fname : String) (sz : Int) :
    ∀ t, (insertInto segs fname sz t).leaves.Perm ((fname, sz) :: t.leaves) := by
  induction segs with
  | nil =>
    intro t
    cases t with
    | mk ds fs =>
      have hL : (insertInto [] fname sz (Tree.mk ds fs)).leaves =
          (leavesDirs ds ++ fs) ++ [(fname, sz)] := by
        rw [show insertInto [] fname sz (Tree.mk ds fs) =
              Tree.mk ds (fs ++ [(fname, sz)]) from rfl]
        rw [Tree.leaves, Tree.dirs, Tree.files, ← List.append_assoc]
      rw [hL, show (Tree.mk ds fs).leaves = leavesDirs ds ++ fs from rfl]
      exact List.perm_append_singleton _ _
  | cons seg rest ih =>
    intro t
    cases t with
    | mk ds fs =>
      rw [show insertInto (seg :: rest) fname sz (Tree.mk ds fs) =
            Tree.mk (insertDirs seg (fun s => insertInto rest fname sz s) ds) fs
          from rfl]
      rw [show (Tree.mk (insertDirs seg (fun s => insertInto rest fname sz s) ds)
            fs).leaves =
          leavesDirs (insertDirs seg (fun s => insertInto rest fname sz s) ds) ++ fs
          from rfl]
      rw [show (Tree.mk ds fs).leaves = leavesDirs ds ++ fs from rfl]
      have h := insertDirs_leaves seg _ (fname, sz) ih ds
      exact h.append_right fs

theorem foldl_parse_step_leaves (files : List (String × Int)) :
    ∀ t, ((files.foldl parse_step t).leaves).Perm
      (files.map (fun pf => ((splitSlash pf.1).getLastD "", pf.2)) ++ t.leaves) := by
  induction files with
  | nil => intro t; simp
  | cons x rest ih =>
    intro t
    rw [List.foldl_cons, List.map_cons]
    have h1 := ih (parse_step t x)
    have h2 : (parse_step t x).leaves.Perm
        (((splitSlash x.1).getLastD "", x.2) :: t.leaves) :=
      insertInto_leaves _ _ _ t
    exact (h1.trans (h2.append_left _)).trans List.perm_middle

/-- C9: each input pair contributes exactly one leaf entry — the total
number of `(filename, size)` leaf entries over all nodes of the built
tree equals the input length, duplicates included, and the leaves are
exactly the (last-segment, size) pairs of the input, as a multiset: no
insertion merges, overwrites, or removes an existing entry. -/
theorem parse_list_leaf_count (files : List (String × Int)) :
    (parse_list files).leaves.length = files.length ∧
    (parse_list files).leaves.Perm
      (files.map (fun pf => ((splitSlash pf.1).getLastD "", pf.2))) := by
  have h := foldl_parse_step_leaves files (Tree.mk [] [])
  rw [parse_list]
  rw [leaves_empty_tree, List.append_nil] at h
  exact ⟨by rw [h.length_eq, List.length_map], h⟩

/-- C2 (code evidence): zero records build the empty root node, but
serializing that root fails — `convert_tree` accesses the missing `''`
child of the empty root, a KeyError — instead of producing a well-formed
childless export. -/
theorem empty_input_serialization_fails :
    parse_list [] = Tree.mk [] [] ∧ convert_tree 0 (parse_list []) = none :=
  ⟨rfl, rfl⟩

theorem convertDirs_cons (k : String) (t : Tree) (rest : List (String × Tree)) :
    convertDirs ((k, t) :: rest) =
      NEntry.dir (convert_branch t k) :: convertDirs rest := by
  cases t with
  | mk ds fs => rw [convertDirs, convert_branch, Tree.dirs, Tree.files]

theorem convertDirs_eq_map (ds : List (String × Tree)) :
    convertDirs ds = ds.map (fun kt => NEntry.dir (convert_branch kt.2 kt.1)) := by
  induction ds with
  | nil => simp [convertDirs]
  | cons kt rest ih =>
    obtain ⟨k, t⟩ := kt
    rw [convertDirs_cons, List.map_cons, ih]

/-- C7: each directory serializes as an array headed by one object
carrying the directory's name, followed by all subdirectory arrays in
dict insertion order and then all leaf file objects in insertion order —
no other sorting — and any directory or file whose name is the empty
string gets the literal placeholder name `(unnamed)` instead. -/
theorem convert_branch_shape (ds : List (String × Tree))
    (fs : List (String × Int)) (name : String) :
    convert_branch (Tree.mk ds fs) name =
      NEntry.nameObj (if name = "" then "(unnamed)" else name) ::
        (ds.map (fun kt => NEntry.dir (convert_branch kt.2 kt.1)) ++
         fs.map (fun p =>
           NEntry.fileObj (if p.1 = "" then "(unnamed)" else p.1) p.2)) := by
  rw [convert_branch, Tree.dirs, Tree.files, convertDirs_eq_map]
  rfl

theorem convertDirs_nil : convertDirs [] = [] := by simp [convertDirs]

theorem entriesFiles_nil : entriesFiles [] = [] := by simp [entriesFiles]

theorem entriesFiles_cons_name (n : String) (rest : List NEntry) :
    entriesFiles (NEntry.nameObj n :: rest) = entriesFiles rest := by
  simp [entriesFiles]

theorem entriesFiles_cons_file (n : String) (s : Int) (rest : List NEntry) :
    entriesFiles (NEntry.fileObj n s :: rest) = (n, s) :: entriesFiles rest := by
  simp [entriesFiles]

theorem entriesFiles_cons_dir (es rest : List NEntry) :
    entriesFiles (NEntry.dir es :: rest) =
      entriesFiles es ++ entriesFiles rest := by
  simp [entriesFiles]

theorem entriesFiles_append (xs ys : List NEntry) :
    entriesFiles (xs ++ ys) = entriesFiles xs ++ entriesFiles ys := by
  induction xs with
  | nil => rw [entriesFiles_nil, List.nil_append, List.nil_append]
  | cons e rest ih =>
    cases e with
    | nameObj n =>
      rw [List.cons_append, entriesFiles_cons_name, entriesFiles_cons_name, ih]
    | fileObj n s =>
      rw [List.cons_append, entriesFiles_cons_file, entriesFiles_cons_file, ih,
        List.cons_append]
    | dir es =>
      rw [List.cons_append, entriesFiles_cons_dir, entriesFiles_cons_dir, ih,
        List.append_assoc]

theorem entriesFiles_map_fileObj (fs : List (String × Int)) :
    entriesFiles (fs.map (fun p => NEntry.fileObj (orUnnamed p.1) p.2)) =
      fs.map (fun p => (orUnnamed p.1, p.2)) := by
  induction fs with
  | nil => rw [List.map_nil, entriesFiles_nil, List.map_nil]
  | cons p rest ih =>
    rw [List.map_cons, entriesFiles_cons_file, ih, List.map_cons]

theorem entriesFiles_convertDirs : ∀ ds : List (String × Tree),
    entriesFiles (convertDirs ds) =
      (leavesDirs ds).map (fun p => (orUnnamed p.1, p.2))
  | [] => by rw [convertDirs_nil, entriesFiles_nil, leavesDirs_nil, List.map_nil]
  | (k, Tree.mk ds fs) :: rest => by
    have h1 := entriesFiles_convertDirs ds
    have h2 := entriesFiles_convertDirs rest
    rw [convertDirs_cons, entriesFiles_cons_dir]
    rw [show convert_branch (Tree.mk ds fs) k =
        NEntry.nameObj (orUnnamed k) ::
          (convertDirs ds ++ fs.map (fun p => NEntry.fileObj (orUnnamed p.1) p.2))
      from rfl]
    rw [entriesFiles_cons_name, entriesFiles_append, h1,
      entriesFiles_map_fileObj, h2, leavesDirs_cons]
    rw [show (Tree.mk ds fs).leaves = leavesDirs ds ++ fs from rfl]
    rw [List.map_append, List.map_append]
termination_by ds => sizeOf ds

theorem entriesFiles_convert_branch (t : Tree) (name : String) :
    entriesFiles (convert_branch t name) =
      t.leaves.map (fun p => (orUnnamed p.1, p.2)) := by
  cases t with
  | mk ds fs =>
    rw [show convert_branch (Tree.mk ds fs) name =
        NEntry.nameObj (orUnnamed name) ::
          (convertDirs ds ++ fs.map (fun p => NEntry.fileObj (orUnnamed p.1) p.2))
      from rfl]
    rw [entriesFiles_cons_name, entriesFiles_append, entriesFiles_convertDirs,
      entriesFiles_map_fileObj,
      show (Tree.mk ds fs).leaves = leavesDirs ds ++ fs from rfl, List.map_append]

theorem splitSlash_head_slash (p : String) (h : p.data.head? = some '/') :
    ∃ q rest, splitSlash p = "" :: q :: rest := by
  match hd : p.data with
  | [] => rw [hd] at h; simp at h
  | c :: l =>
    rw [hd] at h
    simp at h
    subst h
    rw [splitSlash, hd, splitSlashChars_cons_slash]
    match hsc : splitSlashChars l with
    | [] => exact absurd hsc (splitSlashChars_ne_nil l)
    | s :: ss =>
      refine ⟨String.mk s, ss.map (fun cs => String.mk cs), ?_⟩
      rw [List.map_cons, List.map_cons]

theorem chain_head_empty (p : String) (h : p.data.head? = some '/') :
    ∃ ctail, (splitSlash p).dropLast = "" :: ctail := by
  obtain ⟨q, rest, hq⟩ := splitSlash_head_slash p h
  rw [hq, List.dropLast_cons₂]
  exact ⟨(q :: rest).dropLast, rfl⟩

theorem insertInto_root_new (ctail : List String) (fname : String) (sz : Int) :
    insertInto ("" :: ctail) fname sz (Tree.mk [] []) =
      Tree.mk [("", insertInto ctail fname sz (Tree.mk [] []))] [] := by
  simp [insertInto, insertDirs, Tree.dirs, Tree.files]

theorem insertInto_root_pair (ctail : List String) (fname : String) (sz : Int)
    (d : Tree) :
    insertInto ("" :: ctail) fname sz (Tree.mk [("", d)] []) =
      Tree.mk [("", insertInto ctail fname sz d)] [] := by
  simp [insertInto, insertDirs, Tree.dirs, Tree.files]

theorem foldl_parse_step_root (files : List (String × Int))
    (h : ∀ pf ∈ files, ∃ ctail, ((splitSlash pf.1).dropLast) = "" :: ctail) :
    ∀ d, ∃ d2, files.foldl parse_step (Tree.mk [("", d)] []) =
      Tree.mk [("", d2)] [] := by
  induction files with
  | nil => intro d; exact ⟨d, rfl⟩
  | cons x rest ih =>
    intro d
    obtain ⟨ctail, hc⟩ := h x (List.mem_cons_self x rest)
    have hstep : parse_step (Tree.mk [("", d)] []) x =
        Tree.mk [("", insertInto ctail ((splitSlash x.1).getLastD "") x.2 d)] [] := by
      show insertInto ((splitSlash x.1).dropLast) ((splitSlash x.1).getLastD "")
        x.2 (Tree.mk [("", d)] []) = _
      rw [hc, insertInto_root_pair]
    rw [List.foldl_cons, hstep]
    exact ih (fun pf hpf => h pf (List.mem_cons_of_mem x hpf)) _

theorem leaves_single_root (d : Tree) :
    (Tree.mk [("", d)] []).leaves = d.leaves := by
  rw [show (Tree.mk [("", d)] []).leaves = leavesDirs [("", d)] ++ [] from rfl,
    leavesDirs_cons, leavesDirs_nil, List.append_nil, List.append_nil]

/-- C1 (counterexample): `[("a", 1)]` has no duplicate full paths, yet
serializing its tree fails — the built root has the leaf in its own file
list and no `''` child, so `convert_tree` hits a KeyError — hence no
serialized output containing a leaf entry for the path exists. -/
theorem serialize_fails_on_relative_path :
    convert_tree 0 (parse_list [("a", 1)]) = none := rfl

/-- C1 (amended): for every nonempty sequence of `(path, size)` pairs
with no duplicate full paths in which every path begins with `/`,
building the tree and serializing it succeeds, and the serialized output
contains, somewhere, a leaf entry for every input pair — named by the
path's last `/`-segment (the placeholder when that segment is empty) and
carrying the original size. -/
theorem build_serialize_preserves_leaves (files : List (String × Int)) (ts : Int)
    (hne : files ≠ [])
    (hsl : ∀ pf ∈ files, pf.1.data.head? = some '/')
    (_hnd : (files.map Prod.fst).Nodup) :
    ∃ out, convert_tree ts (parse_list files) = some out ∧
      ∀ pf ∈ files,
        (orUnnamed ((splitSlash pf.1).getLastD ""), pf.2) ∈
          entriesFiles out.root := by
  match files, hne with
  | x :: rest, _ =>
    have hch : ∀ pf ∈ x :: rest,
        ∃ ctail, ((splitSlash pf.1).dropLast) = "" :: ctail :=
      fun pf hpf => chain_head_empty pf.1 (hsl pf hpf)
    obtain ⟨cx, hcx⟩ := hch x (List.mem_cons_self x rest)
    have hstep : parse_step (Tree.mk [] []) x =
        Tree.mk [("", insertInto cx ((splitSlash x.1).getLastD "") x.2
          (Tree.mk [] []))] [] := by
      show insertInto ((splitSlash x.1).dropLast) ((splitSlash x.1).getLastD "")
        x.2 (Tree.mk [] []) = _
      rw [hcx, insertInto_root_new]
    obtain ⟨d2, hd2⟩ := foldl_parse_step_root rest
      (fun pf hpf => hch pf (List.mem_cons_of_mem x hpf)) _
    have htree : parse_list (x :: rest) = Tree.mk [("", d2)] [] := by
      rw [parse_list, List.foldl_cons, hstep]
      exact hd2
    have hsome : convert_tree ts (parse_list (x :: rest)) =
        some ⟨1, 0, ts, "0.1", "s3du", convert_branch d2 "S3"⟩ := by
      rw [htree]
      simp [convert_tree, findTree, Tree.dirs]
    refine ⟨⟨1, 0, ts, "0.1", "s3du", convert_branch d2 "S3"⟩, hsome, ?_⟩
    intro pf hpf
    have hperm := foldl_parse_step_leaves (x :: rest) (Tree.mk [] [])
    rw [leaves_empty_tree, List.append_nil] at hperm
    have hmem : ((splitSlash pf.1).getLastD "", pf.2) ∈
        ((x :: rest).foldl parse_step (Tree.mk [] [])).leaves := by
      rw [hperm.mem_iff]
      exact List.mem_map_of_mem _ hpf
    rw [show (x :: rest).foldl parse_step (Tree.mk [] []) =
        parse_list (x :: rest) from rfl, htree, leaves_single_root] at hmem
    show (orUnnamed ((splitSlash pf.1).getLastD ""), pf.2) ∈
      entriesFiles (convert_branch d2 "S3")
    rw [entriesFiles_convert_branch]
    exact List.mem_map_of_mem _ hmem

/-- Witness for C1 at the spec's style of input: two distinct absolute
paths round-trip into the serialized output. -/
theorem build_serialize_preserves_leaves_witness :
    ∃ out, convert_tree 0
        (parse_list [("/b/dir/a.txt", 10), ("/b/c.txt", 5)]) = some out ∧
      ∀ pf ∈ [("/b/dir/a.txt", 10), ("/b/c.txt", 5)],
        (orUnnamed ((splitSlash pf.1).getLastD ""), pf.2) ∈
          entriesFiles out.root :=
  build_serialize_preserves_leaves [("/b/dir/a.txt", 10), ("/b/c.txt", 5)] 0
    (by decide) (by decide) (by decide)

/-- `self.classes = set()` from `__init__`: the set of seen storage
classes, empty at startup. -/
def init_classes : List String := []

/-- `', '.join(...)` over the seen classes, for the closing message. -/
def joinComma (l : List String) : String :=
  String.intercalate ", " l

/-- The `main` pipeline of s3du after the cache-refresh step, acting on
the cache rows: read and filter the rows, build the tree, serialize it,
and emit the closing message `'Found objects of classes: ...'` from the
seen-classes set that `__init__` initialized and that no later step of
the pipeline writes to. -/
def run_main (fl : Option String) (ts : Int) (rows : List (List String)) :
    Option (Ncdu × String) :=
  (list_files fl rows).bind (fun files =>
    (convert_tree ts (parse_list files)).map (fun out =>
      (out, "Found objects of classes: " ++ joinComma init_classes ++ ".")))

/-- C10: the seen-storage-classes set starts empty and no pipeline
operation adds to it, so the closing message of every successful run
reports the empty class list, whatever objects were listed. -/
theorem run_summary_empty_classes (fl : Option String) (ts : Int)
    (rows : List (List String)) (out : Ncdu × String)
    (h : run_main fl ts rows = some out) :
    out.2 = "Found objects of classes: ." := by
  rw [run_main, Option.bind_eq_some] at h
  obtain ⟨files, hf, h⟩ := h
  rw [Option.map_eq_some'] at h
  obtain ⟨o, ho, h⟩ := h
  rw [← h]
  rfl

/-- Witness for C10: a concrete successful run whose closing message
reports no storage classes. -/
theorem run_summary_empty_classes_witness :
    ∃ out, run_main none 0 [["b", "k", "5", "STANDARD"]] = some out ∧
      out.2 = "Found objects of classes: ." := by
  have h1 : run_main none 0 [["b", "k", "5", "STANDARD"]] =
      some (⟨1, 0, 0, "0.1", "s3du",
          convert_branch (Tree.mk [("b", Tree.mk [] [("k", 5)])] []) "S3"⟩,
        "Found objects of classes: " ++ joinComma init_classes ++ ".") := rfl
  have h2 : convert_branch (Tree.mk [("b", Tree.mk [] [("k", 5)])] []) "S3" =
      [NEntry.nameObj "S3",
       NEntry.dir [NEntry.nameObj "b", NEntry.fileObj "k" 5]] := by
    rw [show convert_branch (Tree.mk [("b", Tree.mk [] [("k", 5)])] []) "S3" =
        NEntry.nameObj (orUnnamed "S3") ::
          (convertDirs [("b", Tree.mk [] [("k", 5)])] ++ []) from rfl]
    rw [convertDirs_cons, convertDirs_nil]
    rw [show convert_branch (Tree.mk [] [("k", 5)]) "b" =
        NEntry.nameObj (orUnnamed "b") ::
          (convertDirs [] ++ [NEntry.fileObj (orUnnamed "k") 5]) from rfl]
    rw [convertDirs_nil]
    rfl
  have h : run_main none 0 [["b", "k", "5", "STANDARD"]] =
      some (⟨1, 0, 0, "0.1", "s3du",
          [NEntry.nameObj "S3",
           NEntry.dir [NEntry.nameObj "b", NEntry.fileObj "k" 5]]⟩,
        "Found objects of classes: .") := by
    rw [h1, h2]
    rfl
  exact ⟨_, h, run_summary_empty_classes none 0 _ _ h⟩

end S3du
